import Mathlib

/-!
Shallow embedding of `zynq-bit2bin.c` (conversion of Xilinx Zynq7000 `.bit`
bitstream containers to the raw `.bin` format).

Streams are modelled as `List Nat` of byte values; reading consumes a prefix.
Each C function that can fail returns an `Option`; functions that write to the
output stream additionally return the list of bytes written to it (the second
component of the pair), which is also meaningful on failure since output
emitted before an error is not rolled back.

Loops are written with an explicit fuel parameter, always instantiated so that
the fuel strictly dominates the loop measure (the firmware copy loop consumes
at least one byte of `fw_length` per iteration, the field loop at least one
byte of input per iteration), which keeps every definition computable by the
kernel.
-/

/-- `BIT_MAGIC_HEADER` (src lines 27-30): the fixed 13-byte container magic. -/
def BIT_MAGIC_HEADER : List Nat :=
  [0x00, 0x09, 0x0f, 0xf0, 0x0f, 0xf0, 0x0f, 0xf0, 0x0f, 0xf0, 0x00, 0x00, 0x01]

/-- `FIRMWARE_MAGIC_HEADER` (src lines 35-42): the 48-byte magic embedded in
the firmware field: 32 times `FF`, then `00 00 00 BB 11 22 00 44`, then
8 times `FF`. -/
def FIRMWARE_MAGIC_HEADER : List Nat :=
  List.replicate 32 0xff ++ [0x00, 0x00, 0x00, 0xbb, 0x11, 0x22, 0x00, 0x44] ++
    List.replicate 8 0xff

/-- `read_uint` (src lines 52-66): read `bytes` bytes and accumulate them into
a `uint32_t` with `*res = (*res << 8) | buf[i]`; the shift is 32-bit
arithmetic, hence the `% 2^32`.  Fails when fewer than `bytes` bytes are
available (`fread` short read). -/
def read_uint (bytes : Nat) (input : List Nat) : Option (Nat × List Nat) :=
  if bytes ≤ input.length then
    some ((input.take bytes).foldl (fun res b => (((res <<< 8) % 4294967296) ||| b)) 0,
      input.drop bytes)
  else none

/-- `read_meta_field` (src lines 74-97): read a 16-bit big-endian length, fail
if it exceeds `MAX_META_FIELD_LENGTH` (256), read that many body bytes, and
print the body to stderr with `fprintf(stderr, "* %s\n", buf)`.  The returned
first component is the diagnostic line emitted (`* `, body, newline).

Note on the `%s` conversion: `buf` holds exactly `field_length` bytes and is
not NUL-terminated by the code, so `%s` prints the body only up to its first
NUL byte — modelled by `takeWhile (· ≠ 0)`.  When the body contains no NUL
byte at all the C program reads uninitialized memory past the body (undefined
behavior); the model then optimistically emits the whole body. -/
def read_meta_field (input : List Nat) : Option (List Nat × List Nat) :=
  match read_uint 2 input with
  | none => none
  | some (field_length, rest) =>
    if field_length > 256 then none
    else if field_length ≤ rest.length then
      some ([0x2a, 0x20] ++ (rest.take field_length).takeWhile (fun b => b ≠ 0) ++ [0x0a],
        rest.drop field_length)
    else none

/-- `read_magic_header` (src lines 107-123): read `expected.length` bytes and
compare them byte-for-byte (`memcmp`) against `expected`.  Fails on a short
read or on any mismatch; consumes the bytes in either case (consumption on
failure is irrelevant here because every failure is fatal). -/
def read_magic_header (expected : List Nat) (input : List Nat) : Option (List Nat) :=
  if expected.length ≤ input.length then
    if input.take expected.length = expected then some (input.drop expected.length)
    else none
  else none

/-- The in-place swap loop of `invert_u32_endianness` (src lines 150-158):
reverse the byte order of each consecutive 4-byte word.  A trailing fragment
shorter than 4 bytes is left unchanged (in the C code it is never touched by
the loop); the guard of `invert_u32_endianness` rules that case out anyway. -/
def invert_u32_swap : List Nat → List Nat
  | a :: b :: c :: d :: rest => d :: c :: b :: a :: invert_u32_swap rest
  | rest => rest

/-- `invert_u32_endianness` (src lines 141-160): fails when the buffer length
is not a multiple of 4 (leaving the buffer untouched), otherwise swaps each
32-bit word's bytes in place. -/
def invert_u32_endianness (buf : List Nat) : Option (List Nat) :=
  if buf.length % 4 ≠ 0 then none else some (invert_u32_swap buf)

/-- The copy loop of `process_firmware` (src lines 196-231): while bytes
remain, read a chunk of `min 4096 fw_length` bytes; on the first chunk detect
the SYNC word endianness from its first 4 bytes (`AA 99 55 66` sets
`invert_endian`, `66 55 99 AA` keeps it, anything else is fatal); invert the
chunk's word endianness when the flag is set — the source discards the return
value of `invert_u32_endianness` at line 220, so a corrector failure would
leave the chunk unchanged (`Option.getD`); write the chunk to the output.

`fuel` is extra structure for termination; the loop body consumes at least
one byte of `fw_length` per iteration, so callers pass `fuel = fw_length`. -/
def copy_chunks (fuel : Nat) (fw_length : Nat) (first : Bool) (invert_endian : Bool)
    (input : List Nat) : Option (List Nat) × List Nat :=
  match fuel with
  | 0 => if fw_length = 0 then (some input, []) else (none, [])
  | fuel + 1 =>
    if fw_length = 0 then (some input, [])
    else
      let chunk_len := min 4096 fw_length
      if chunk_len ≤ input.length then
        let chunk := input.take chunk_len
        if first ∧ chunk.take 4 ≠ [0xaa, 0x99, 0x55, 0x66] ∧
            chunk.take 4 ≠ [0x66, 0x55, 0x99, 0xaa] then
          (none, [])
        else
          let invert2 : Bool :=
            if first then decide (chunk.take 4 = [0xaa, 0x99, 0x55, 0x66]) else invert_endian
          let chunk2 := if invert2 then (invert_u32_endianness chunk).getD chunk else chunk
          let r := copy_chunks fuel (fw_length - chunk_len) false invert2 (input.drop chunk_len)
          (r.1, chunk2 ++ r.2)
      else (none, [])

/-- `process_firmware` (src lines 169-234): read the 32-bit big-endian
`fw_length`; reject it when smaller than `4 + 48` or not a multiple of 4;
validate and strip the 48-byte embedded magic; then stream the remaining
`fw_length - 48` bytes through the copy loop. -/
def process_firmware (input : List Nat) : Option (List Nat) × List Nat :=
  match read_uint 4 input with
  | none => (none, [])
  | some (fw_length, rest) =>
    if fw_length < 4 + FIRMWARE_MAGIC_HEADER.length then (none, [])
    else if fw_length % 4 ≠ 0 then (none, [])
    else
      match read_magic_header FIRMWARE_MAGIC_HEADER rest with
      | none => (none, [])
      | some rest2 =>
        copy_chunks (fw_length - FIRMWARE_MAGIC_HEADER.length)
          (fw_length - FIRMWARE_MAGIC_HEADER.length) true false rest2

/-- The field loop of `process_bit_file` (src lines 250-277): read one tag
byte; tags `0x61`-`0x64` dispatch to `read_meta_field` and continue; tag
`0x65` dispatches to `process_firmware` and terminates the loop; any other
tag is fatal.  `fuel` is extra structure for termination; each iteration
consumes at least one byte of input, so callers pass `fuel > input.length`. -/
def field_loop (fuel : Nat) (input : List Nat) : Option (List Nat) × List Nat :=
  match fuel with
  | 0 => (none, [])
  | fuel + 1 =>
    match input with
    | [] => (none, [])
    | field_type :: rest =>
      if field_type = 0x61 ∨ field_type = 0x62 ∨ field_type = 0x63 ∨ field_type = 0x64 then
        match read_meta_field rest with
        | none => (none, [])
        | some (_, rest2) => field_loop fuel rest2
      else if field_type = 0x65 then process_firmware rest
      else (none, [])

/-- `process_bit_file` (src lines 244-279).  Note the source calls
`READ_MAGIC_HEADER(input, BIT_MAGIC_HEADER)` at line 246 WITHOUT checking its
return value: on a mismatch (or short read) a diagnostic is printed but the
run continues, the stream simply having advanced past the first 13 bytes (or
to end of stream).  `List.drop 13` models both cases.  The field loop then
runs with fuel `input.length + 1`, which strictly dominates the remaining
input length throughout. -/
def process_bit_file (input : List Nat) : Option (List Nat) × List Nat :=
  field_loop (input.length + 1) (input.drop BIT_MAGIC_HEADER.length)

/-- Variant of `copy_chunks` in which a failure of `invert_u32_endianness` is
fatal instead of being silently discarded (the source ignores the corrector's
return value at line 220).  Proving the two loops equal on word-aligned
lengths shows the corrector's error branch is unreachable in actual runs. -/
def copy_chunks_strict (fuel : Nat) (fw_length : Nat) (first : Bool) (invert_endian : Bool)
    (input : List Nat) : Option (List Nat) × List Nat :=
  match fuel with
  | 0 => if fw_length = 0 then (some input, []) else (none, [])
  | fuel + 1 =>
    if fw_length = 0 then (some input, [])
    else
      let chunk_len := min 4096 fw_length
      if chunk_len ≤ input.length then
        let chunk := input.take chunk_len
        if first ∧ chunk.take 4 ≠ [0xaa, 0x99, 0x55, 0x66] ∧
            chunk.take 4 ≠ [0x66, 0x55, 0x99, 0xaa] then
          (none, [])
        else
          let invert2 : Bool :=
            if first then decide (chunk.take 4 = [0xaa, 0x99, 0x55, 0x66]) else invert_endian
          if invert2 then
            match invert_u32_endianness chunk with
            | none => (none, [])
            | some chunk2 =>
              let r := copy_chunks_strict fuel (fw_length - chunk_len) false invert2
                (input.drop chunk_len)
              (r.1, chunk2 ++ r.2)
          else
            let r := copy_chunks_strict fuel (fw_length - chunk_len) false invert2
              (input.drop chunk_len)
            (r.1, chunk ++ r.2)
      else (none, [])

/-- Specification-side: the unsigned big-endian interpretation of a byte
sequence (most significant byte first). -/
def beVal (l : List Nat) : Nat := l.foldl (fun res b => res * 256 + b) 0

/-- Specification-side: 4-byte big-endian encoding of `n < 2^32`, used to
build concrete input streams in theorem statements. -/
def be4 (n : Nat) : List Nat :=
  [n / 16777216 % 256, n / 65536 % 256, n / 256 % 256, n % 256]

/-! ### Lemmas about `read_uint` -/

/-- One accumulation step of `read_uint` is plain base-256 accumulation as
long as the accumulator has not yet filled 24 bits. -/
theorem lor_step_eq (res b : Nat) (hres : res < 16777216) (hb : b < 256) :
    (((res <<< 8) % 4294967296) ||| b) = res * 256 + b := by
  have h1 : res <<< 8 = res * 256 := by rw [Nat.shiftLeft_eq]
  have h2 : (res * 256) % 4294967296 = res * 256 := Nat.mod_eq_of_lt (by omega)
  have hb8 : b < 2 ^ 8 := by simpa using hb
  have h3 : (2 : Nat) ^ 8 * res + b = 2 ^ 8 * res ||| b :=
    Nat.mul_add_lt_is_or hb8 res
  have h4 : res * 256 = 2 ^ 8 * res := by ring
  rw [h1, h2, h4, ← h3]

/-- The `read_uint` fold agrees with plain base-256 accumulation while the
result fits in 32 bits. -/
theorem foldl_lor_eq (l : List Nat) : ∀ res : Nat, (∀ b ∈ l, b < 256) →
    (res + 1) * 256 ^ l.length ≤ 4294967296 →
    l.foldl (fun r b => (((r <<< 8) % 4294967296) ||| b)) res =
      l.foldl (fun r b => r * 256 + b) res := by
  induction l with
  | nil => intro res _ _; rfl
  | cons a t ih =>
    intro res hb hbound
    have ha : a < 256 := hb a (List.mem_cons_self a t)
    have h256 : (256 : Nat) ≤ 256 ^ (a :: t).length :=
      Nat.le_self_pow (by simp) 256
    have hres : res < 16777216 := by
      have := Nat.mul_le_mul_left (res + 1) h256
      omega
    have hstep : (((res <<< 8) % 4294967296) ||| a) = res * 256 + a :=
      lor_step_eq res a hres ha
    have hbound2 : (res * 256 + a + 1) * 256 ^ t.length ≤ 4294967296 := by
      have hle : res * 256 + a + 1 ≤ (res + 1) * 256 := by omega
      calc (res * 256 + a + 1) * 256 ^ t.length
          ≤ (res + 1) * 256 * 256 ^ t.length := Nat.mul_le_mul_right _ hle
        _ = (res + 1) * 256 ^ (a :: t).length := by
            rw [List.length_cons, pow_succ]; ring
        _ ≤ 4294967296 := hbound
    simp only [List.foldl_cons, hstep]
    exact ih (res * 256 + a) (fun b h => hb b (List.mem_cons_of_mem a h)) hbound2

/-- `read_uint` on a stream starting with `n ≤ 4` bytes below 256 returns the
big-endian interpretation of those bytes and the remainder of the stream. -/
theorem read_uint_be (n : Nat) (hn : n ≤ 4) (pre rest : List Nat)
    (hlen : pre.length = n) (hb : ∀ b ∈ pre, b < 256) :
    read_uint n (pre ++ rest) = some (beVal pre, rest) := by
  unfold read_uint
  have h1 : n ≤ (pre ++ rest).length := by
    rw [List.length_append, ← hlen]; omega
  rw [if_pos h1]
  have htake : (pre ++ rest).take n = pre := by
    rw [← hlen]; exact List.take_left pre rest
  have hdrop : (pre ++ rest).drop n = rest := by
    rw [← hlen]; exact List.drop_left pre rest
  rw [htake, hdrop]
  have hbound : (0 + 1) * 256 ^ pre.length ≤ 4294967296 := by
    have : (256 : Nat) ^ pre.length ≤ 256 ^ 4 :=
      Nat.pow_le_pow_right (by norm_num) (by omega)
    omega
  rw [foldl_lor_eq pre 0 hb hbound]
  rfl

/-- On success, `read_uint` leaves exactly the input minus its first `n`
bytes. -/
theorem read_uint_rest (n : Nat) (input : List Nat) (L : Nat) (r : List Nat)
    (h : read_uint n input = some (L, r)) : r = input.drop n := by
  unfold read_uint at h
  split at h
  · simp only [Option.some.injEq, Prod.mk.injEq] at h
    exact h.2.symm
  · simp at h

/-- A successful `read_uint` on `pre` alone extends to any continuation. -/
theorem read_uint_append (n : Nat) (pre rest : List Nat) (hn : pre.length = n) (L : Nat)
    (h : read_uint n pre = some (L, [])) :
    read_uint n (pre ++ rest) = some (L, rest) := by
  unfold read_uint at h ⊢
  rw [if_pos (by omega : n ≤ pre.length)] at h
  simp only [Option.some.injEq, Prod.mk.injEq] at h
  have h1 : n ≤ (pre ++ rest).length := by rw [List.length_append]; omega
  rw [if_pos h1]
  have htake : (pre ++ rest).take n = pre.take n := by
    rw [← hn, List.take_left pre rest, List.take_length]
  have hdrop : (pre ++ rest).drop n = rest := by
    rw [← hn]; exact List.drop_left pre rest
  rw [htake, hdrop, h.1]

/-- Claim C3: for every `n` in {1,2,3,4} and every byte sequence of length `n`
on the input, `read_uint` consumes exactly the `n` bytes and returns their
unsigned big-endian interpretation; it fails when fewer than `n` bytes are
available. -/
theorem read_uint_bigendian (n : Nat) (h1 : 1 ≤ n) (h2 : n ≤ 4) (pre rest : List Nat)
    (hlen : pre.length = n) (hb : ∀ b ∈ pre, b < 256) :
    read_uint n (pre ++ rest) = some (beVal pre, rest) ∧
    ∀ input : List Nat, input.length < n → read_uint n input = none := by
  refine ⟨read_uint_be n h2 pre rest hlen hb, ?_⟩
  intro input hlt
  unfold read_uint
  rw [if_neg (by omega)]

/-- Witness for C3: bytes `00 00 01 00` decode to 256 with nothing left over,
and three bytes are not enough for a 4-byte read. -/
theorem read_uint_bigendian_witness :
    read_uint 4 [0, 0, 1, 0] = some (256, []) ∧ read_uint 4 [0, 0, 1] = none := by
  have h := read_uint_bigendian 4 (by decide) (by decide) [0, 0, 1, 0] []
    (by decide) (by decide)
  exact ⟨h.1, h.2 [0, 0, 1] (by decide)⟩

/-! ### Lemmas about `be4` and the magic headers -/

theorem be4_length (n : Nat) : (be4 n).length = 4 := rfl

theorem be4_bytes (n : Nat) : ∀ b ∈ be4 n, b < 256 := by
  intro b hb
  simp only [be4, List.mem_cons, List.not_mem_nil, or_false] at hb
  rcases hb with h | h | h | h <;> omega

theorem beVal_be4 (n : Nat) (h : n < 4294967296) : beVal (be4 n) = n := by
  simp only [beVal, be4, List.foldl_cons, List.foldl_nil]
  omega

/-- `read_uint 4` decodes a `be4`-encoded length back to its value. -/
theorem read_uint_be4 (n : Nat) (h : n < 4294967296) (rest : List Nat) :
    read_uint 4 (be4 n ++ rest) = some (n, rest) := by
  rw [read_uint_be 4 (by omega) (be4 n) rest (be4_length n) (be4_bytes n), beVal_be4 n h]

theorem FIRMWARE_MAGIC_HEADER_length : FIRMWARE_MAGIC_HEADER.length = 48 := by decide

/-- `read_magic_header` succeeds on a stream starting with the expected
sequence and leaves exactly the remainder. -/
theorem read_magic_header_exact (expected rest : List Nat) :
    read_magic_header expected (expected ++ rest) = some rest := by
  unfold read_magic_header
  rw [if_pos (by rw [List.length_append]; omega), if_pos (List.take_left expected rest),
    List.drop_left expected rest]

/-! ### Lemmas about `invert_u32_swap` -/

theorem invert_u32_swap_length : ∀ l : List Nat, (invert_u32_swap l).length = l.length
  | [] => rfl
  | [_] => rfl
  | [_, _] => rfl
  | [_, _, _] => rfl
  | a :: b :: c :: d :: t => by
    simp [invert_u32_swap, invert_u32_swap_length t]

theorem invert_u32_swap_swap : ∀ l : List Nat, invert_u32_swap (invert_u32_swap l) = l
  | [] => rfl
  | [_] => rfl
  | [_, _] => rfl
  | [_, _, _] => rfl
  | a :: b :: c :: d :: t => by
    simp [invert_u32_swap, invert_u32_swap_swap t]

theorem invert_u32_swap_append : ∀ l₁ l₂ : List Nat, l₁.length % 4 = 0 →
    invert_u32_swap (l₁ ++ l₂) = invert_u32_swap l₁ ++ invert_u32_swap l₂
  | [], _, _ => rfl
  | [_], _, h => by simp at h
  | [_, _], _, h => by simp at h
  | [_, _, _], _, h => by simp at h
  | a :: b :: c :: d :: t, l₂, h => by
    have ht : t.length % 4 = 0 := by
      simp only [List.length_cons] at h; omega
    simp [invert_u32_swap, invert_u32_swap_append t l₂ ht]

/-- Claim C9: the word-endianness corrector is an involution on every buffer
whose length is a multiple of 4: applying it twice restores the buffer. -/
theorem invert_u32_endianness_involutive (buf : List Nat) (h : buf.length % 4 = 0) :
    (invert_u32_endianness buf).bind invert_u32_endianness = some buf := by
  have h2 : (invert_u32_swap buf).length % 4 = 0 := by
    rw [invert_u32_swap_length]; exact h
  simp [invert_u32_endianness, h, h2, invert_u32_swap_swap]

/-- Witness for C9 at the concrete 8-byte buffer `[1,2,3,4,5,6,7,8]`. -/
theorem invert_u32_endianness_involutive_witness :
    (invert_u32_endianness [1, 2, 3, 4, 5, 6, 7, 8]).bind invert_u32_endianness =
      some [1, 2, 3, 4, 5, 6, 7, 8] :=
  invert_u32_endianness_involutive [1, 2, 3, 4, 5, 6, 7, 8] (by decide)

/-! ### Error-handling claims on `read_meta_field` and `process_firmware` -/

/-- Claim C7: a metadata length prefix decoding to more than 256 makes
`read_meta_field` fail whatever the rest of the stream holds — in particular
without consuming (or even depending on) any declared body byte. -/
theorem meta_length_reject (pre : List Nat) (hpre : pre.length = 2) (L : Nat)
    (hread : read_uint 2 pre = some (L, [])) (hbig : L > 256) :
    ∀ rest2 : List Nat, read_meta_field (pre ++ rest2) = none := by
  intro rest2
  unfold read_meta_field
  rw [read_uint_append 2 pre rest2 hpre L hread]
  simp [hbig]

/-- Witness for C7: length prefix `01 2C` (300) is rejected for any
continuation, here `[7, 7, 7]`. -/
theorem meta_length_reject_witness : read_meta_field ([1, 44] ++ [7, 7, 7]) = none :=
  meta_length_reject [1, 44] (by decide) 300 (by decide) (by decide) [7, 7, 7]

/-- Claim C5: `process_firmware` rejects a declared `total_length` smaller
than `4 + 48` or not a multiple of 4, and does so whatever bytes follow the
4-byte length prefix — so no embedded-magic or payload byte is consumed or
even examined. -/
theorem firmware_length_reject (pre : List Nat) (hpre : pre.length = 4) (L : Nat)
    (hread : read_uint 4 pre = some (L, []))
    (hbad : L < 4 + FIRMWARE_MAGIC_HEADER.length ∨ L % 4 ≠ 0) :
    ∀ rest2 : List Nat, process_firmware (pre ++ rest2) = (none, []) := by
  intro rest2
  unfold process_firmware
  rw [read_uint_append 4 pre rest2 hpre L hread]
  by_cases h1 : L < 4 + FIRMWARE_MAGIC_HEADER.length
  · simp [h1]
  · have h2 : L % 4 ≠ 0 := by
      rcases hbad with h | h
      · omega
      · exact h
    simp [h1, h2]

/-- Witness for C5: declared length 51 (< 52, and also not word-aligned) is
rejected with empty output for the continuation `[1, 2, 3]`. -/
theorem firmware_length_reject_witness :
    process_firmware ([0, 0, 0, 51] ++ [1, 2, 3]) = (none, []) :=
  firmware_length_reject [0, 0, 0, 51] (by decide) 51 (by decide)
    (Or.inl (by decide)) [1, 2, 3]

/-- Claim C6 is refuted by the code: the diagnostic line is produced with
`fprintf(stderr, "* %s\n", buf)`, which stops at the first NUL byte of the
body, so a body `61 00` within the ceiling and fully available is emitted as
`* a` — the line does not contain the body bytes as-is.  (For a body with no
NUL byte at all the C code even reads past the initialized buffer.) -/
theorem meta_field_nul_truncated :
    read_meta_field [0, 2, 0x61, 0x00, 7, 7] = some ([0x2a, 0x20, 0x61, 0x0a], [7, 7]) ∧
    [0x2a, 0x20, 0x61, 0x0a] ≠ [0x2a, 0x20] ++ [0x61, 0x00] ++ [0x0a] := by decide

/-- Claim C1 is refuted by the code: `process_bit_file` ignores the return
value of `READ_MAGIC_HEADER` (src line 246), so an input whose first 13 bytes
(here all `FF`) do not match `BIT_MAGIC_HEADER` is not fatal: the run goes on
to read the field tag `0x65`, converts the firmware field, writes the SYNC
word to the output and exits successfully. -/
theorem magic_mismatch_not_fatal :
    List.replicate 13 0xff ≠ BIT_MAGIC_HEADER ∧
    process_bit_file (List.replicate 13 0xff ++ 0x65 :: (be4 52 ++ (FIRMWARE_MAGIC_HEADER ++
      [0x66, 0x55, 0x99, 0xaa]))) = (some [], [0x66, 0x55, 0x99, 0xaa]) := by decide

/-! ### The firmware copy loop -/

/-- After the first chunk, the copy loop with enough fuel and enough input
streams exactly `fwLen` bytes, applying the word swap to every chunk when the
invert flag is set. -/
theorem copy_chunks_steady (fuel : Nat) : ∀ (fwLen : Nat) (inv : Bool) (input : List Nat),
    fwLen % 4 = 0 → fwLen ≤ fuel → fwLen ≤ input.length →
    copy_chunks fuel fwLen false inv input =
      (some (input.drop fwLen),
        if inv then invert_u32_swap (input.take fwLen) else input.take fwLen) := by
  induction fuel with
  | zero =>
    intro fwLen inv input h4 hfuel hlen
    have h0 : fwLen = 0 := by omega
    subst h0
    cases inv <;> simp [copy_chunks, invert_u32_swap]
  | succ fuel ih =>
    intro fwLen inv input h4 hfuel hlen
    by_cases h0 : fwLen = 0
    · subst h0; cases inv <;> simp [copy_chunks, invert_u32_swap]
    · have hcll : min 4096 fwLen ≤ input.length := by omega
      have hcl4 : (min 4096 fwLen) % 4 = 0 := by omega
      have hchunk_len : (input.take (min 4096 fwLen)).length = min 4096 fwLen := by
        rw [List.length_take]; omega
      have hinv : invert_u32_endianness (input.take (min 4096 fwLen)) =
          some (invert_u32_swap (input.take (min 4096 fwLen))) := by
        simp [invert_u32_endianness, hchunk_len, hcl4]
      have hrec := ih (fwLen - min 4096 fwLen) inv (input.drop (min 4096 fwLen))
        (by omega) (by omega) (by rw [List.length_drop]; omega)
      simp only [copy_chunks]
      rw [if_neg h0, if_pos hcll]
      rw [if_neg (by simp)]
      simp only [Bool.false_eq_true, if_false, hinv, Option.getD_some, hrec]
      have he : 4096 ⊓ fwLen + (fwLen - 4096 ⊓ fwLen) = fwLen := by omega
      have htake2 : input.take fwLen =
          input.take (4096 ⊓ fwLen) ++ (input.drop (4096 ⊓ fwLen)).take (fwLen - 4096 ⊓ fwLen) := by
        conv_lhs => rw [← he]
        exact List.take_add input _ _
      rw [List.drop_drop, he, htake2]
      cases inv with
      | true =>
        rw [invert_u32_swap_append _ _ (by rw [hchunk_len]; omega)]
        simp
      | false => simp

/-- On the first chunk, once the SYNC word matches the pattern for flag `inv`,
the loop behaves exactly like the steady loop with the flag resolved to
`inv`. -/
theorem copy_chunks_first_step (f fwLen : Nat) (inv : Bool) (input : List Nat)
    (h4 : 4 ≤ fwLen) (hlen : fwLen ≤ input.length)
    (hsync : input.take 4 =
      (if inv then [0xaa, 0x99, 0x55, 0x66] else [0x66, 0x55, 0x99, 0xaa])) :
    copy_chunks (f + 1) fwLen true false input = copy_chunks (f + 1) fwLen false inv input := by
  have h0 : ¬ fwLen = 0 := by omega
  have hcll : min 4096 fwLen ≤ input.length := by omega
  have hchunk4 : (input.take (min 4096 fwLen)).take 4 = input.take 4 := by
    rw [List.take_take]
    congr 1
    omega
  simp only [copy_chunks]
  rw [if_neg h0, if_pos hcll]
  cases inv with
  | true => simp at hsync; simp [hchunk4, hsync, h0, hcll]
  | false => simp at hsync; simp [hchunk4, hsync, h0, hcll]

/-- Full behaviour of the copy loop from its initial state, for a stream that
holds the declared bytes and starts with a recognized SYNC word. -/
theorem copy_chunks_start (fuel fwLen : Nat) (inv : Bool) (input : List Nat)
    (h4 : fwLen % 4 = 0) (hge : 4 ≤ fwLen) (hfuel : fwLen ≤ fuel) (hlen : fwLen ≤ input.length)
    (hsync : input.take 4 =
      (if inv then [0xaa, 0x99, 0x55, 0x66] else [0x66, 0x55, 0x99, 0xaa])) :
    copy_chunks fuel fwLen true false input =
      (some (input.drop fwLen),
        if inv then invert_u32_swap (input.take fwLen) else input.take fwLen) := by
  obtain ⟨f, rfl⟩ : ∃ f, fuel = f + 1 := ⟨fuel - 1, by omega⟩
  rw [copy_chunks_first_step f fwLen inv input hge hlen hsync]
  exact copy_chunks_steady (f + 1) fwLen inv input h4 hfuel hlen

/-- A well-formed firmware field header (length prefix and embedded magic)
reduces `process_firmware` to the copy loop on the payload. -/
theorem process_firmware_unfold (payload rest : List Nat)
    (hge : 4 ≤ payload.length) (h4 : payload.length % 4 = 0)
    (hbound : 48 + payload.length < 4294967296) :
    process_firmware (be4 (48 + payload.length) ++
        (FIRMWARE_MAGIC_HEADER ++ (payload ++ rest))) =
      copy_chunks payload.length payload.length true false (payload ++ rest) := by
  unfold process_firmware
  rw [read_uint_be4 _ hbound]
  simp only [read_magic_header_exact, FIRMWARE_MAGIC_HEADER_length]
  rw [if_neg (by omega), if_neg (by omega)]
  have h48 : 48 + payload.length - 48 = payload.length := by omega
  rw [h48]

/-- A first chunk whose leading 4 bytes match neither SYNC pattern makes the
copy loop fail before writing anything. -/
theorem copy_chunks_bad_sync (fuel fwLen : Nat) (input : List Nat)
    (h4 : 4 ≤ fwLen) (hlen : fwLen ≤ input.length)
    (hs1 : input.take 4 ≠ [0xaa, 0x99, 0x55, 0x66])
    (hs2 : input.take 4 ≠ [0x66, 0x55, 0x99, 0xaa]) :
    copy_chunks (fuel + 1) fwLen true false input = (none, []) := by
  have h0 : ¬ fwLen = 0 := by omega
  have hcll : min 4096 fwLen ≤ input.length := by omega
  have hchunk4 : (input.take (min 4096 fwLen)).take 4 = input.take 4 := by
    rw [List.take_take]
    congr 1
    omega
  simp only [copy_chunks]
  rw [if_neg h0, if_pos hcll]
  rw [if_pos ⟨by trivial, by rw [hchunk4]; exact hs1, by rw [hchunk4]; exact hs2⟩]

/-- Claim C2: for a firmware field whose first payload word is the inverted
SYNC word `AA 99 55 66`, every 4-byte word of the payload (the SYNC word
included) is written with its bytes reversed; for a field whose first payload
word is the canonical SYNC word `66 55 99 AA` the payload is written
unchanged. -/
theorem firmware_sync_endianness (payload rest : List Nat)
    (hge : 4 ≤ payload.length) (h4 : payload.length % 4 = 0)
    (hbound : 48 + payload.length < 4294967296) :
    (payload.take 4 = [0xaa, 0x99, 0x55, 0x66] →
      process_firmware (be4 (48 + payload.length) ++
          (FIRMWARE_MAGIC_HEADER ++ (payload ++ rest))) =
        (some rest, invert_u32_swap payload)) ∧
    (payload.take 4 = [0x66, 0x55, 0x99, 0xaa] →
      process_firmware (be4 (48 + payload.length) ++
          (FIRMWARE_MAGIC_HEADER ++ (payload ++ rest))) =
        (some rest, payload)) := by
  have hlen : payload.length ≤ (payload ++ rest).length := by
    rw [List.length_append]; omega
  have htake : (payload ++ rest).take payload.length = payload := List.take_left payload rest
  have hdrop : (payload ++ rest).drop payload.length = rest := List.drop_left payload rest
  have htake4 : (payload ++ rest).take 4 = payload.take 4 :=
    List.take_append_of_le_length hge
  constructor
  · intro hsync
    rw [process_firmware_unfold payload rest hge h4 hbound]
    rw [copy_chunks_start payload.length payload.length true (payload ++ rest) h4 hge
      (le_refl _) hlen (by rw [htake4, hsync]; simp)]
    rw [htake, hdrop]
    simp
  · intro hsync
    rw [process_firmware_unfold payload rest hge h4 hbound]
    rw [copy_chunks_start payload.length payload.length false (payload ++ rest) h4 hge
      (le_refl _) hlen (by rw [htake4, hsync]; simp)]
    rw [htake, hdrop]
    simp

/-- Witness for C2, inverted case: payload `AA 99 55 66 01 02 03 04` comes out
fully word-byte-swapped, the SYNC word appearing as `66 55 99 AA`. -/
theorem firmware_sync_endianness_witness :
    process_firmware (be4 56 ++ (FIRMWARE_MAGIC_HEADER ++
        ([0xaa, 0x99, 0x55, 0x66, 1, 2, 3, 4] ++ []))) =
      (some [], [0x66, 0x55, 0x99, 0xaa, 4, 3, 2, 1]) := by
  have h := (firmware_sync_endianness [0xaa, 0x99, 0x55, 0x66, 1, 2, 3, 4] []
    (by decide) (by decide) (by decide)).1 (by decide)
  exact h.trans (by decide)

/-- Claim C8: a first payload word equal to neither the canonical nor the
inverted SYNC word makes firmware extraction fail with no byte written to the
output. -/
theorem firmware_invalid_sync (payload rest : List Nat)
    (hge : 4 ≤ payload.length) (h4 : payload.length % 4 = 0)
    (hbound : 48 + payload.length < 4294967296)
    (hs1 : payload.take 4 ≠ [0xaa, 0x99, 0x55, 0x66])
    (hs2 : payload.take 4 ≠ [0x66, 0x55, 0x99, 0xaa]) :
    process_firmware (be4 (48 + payload.length) ++
        (FIRMWARE_MAGIC_HEADER ++ (payload ++ rest))) = (none, []) := by
  rw [process_firmware_unfold payload rest hge h4 hbound]
  obtain ⟨f, hf⟩ : ∃ f, payload.length = f + 1 := ⟨payload.length - 1, by omega⟩
  rw [hf]
  exact copy_chunks_bad_sync f (f + 1) (payload ++ rest) (by omega)
    (by rw [List.length_append]; omega)
    (by rw [List.take_append_of_le_length hge]; exact hs1)
    (by rw [List.take_append_of_le_length hge]; exact hs2)

/-- Witness for C8: payload word `01 02 03 04` is not a SYNC word; the run
fails with empty output. -/
theorem firmware_invalid_sync_witness :
    process_firmware (be4 52 ++ (FIRMWARE_MAGIC_HEADER ++ ([1, 2, 3, 4] ++ []))) =
      (none, []) :=
  firmware_invalid_sync [1, 2, 3, 4] [] (by decide) (by decide) (by decide)
    (by decide) (by decide)

/-- Claim C4: with a word-aligned remaining length, every chunk handed to
`invert_u32_endianness` has word-aligned size, so the copy loop is
indistinguishable from the strict variant in which a corrector failure is
fatal — the corrector's non-multiple-of-4 error branch is unreachable.  The
second conjunct states that a chunk shorter than the 4096-byte cap exhausts
the remaining length, i.e. only the final chunk can be short. -/
theorem copy_chunks_aligned_eq_strict (fuel : Nat) : ∀ (fwLen : Nat) (first inv : Bool)
    (input : List Nat), fwLen % 4 = 0 →
    copy_chunks fuel fwLen first inv input = copy_chunks_strict fuel fwLen first inv input ∧
    (min 4096 fwLen < 4096 → fwLen - min 4096 fwLen = 0) := by
  induction fuel with
  | zero =>
    intro fwLen first inv input h4
    exact ⟨rfl, by omega⟩
  | succ fuel ih =>
    intro fwLen first inv input h4
    refine ⟨?_, by omega⟩
    by_cases h0 : fwLen = 0
    · subst h0; rfl
    · have hcl4 : (min 4096 fwLen) % 4 = 0 := by omega
      simp only [copy_chunks, copy_chunks_strict]
      rw [if_neg h0, if_neg h0]
      by_cases hin : min 4096 fwLen ≤ input.length
      · rw [if_pos hin, if_pos hin]
        by_cases hs : (first : Prop) ∧
            (input.take (min 4096 fwLen)).take 4 ≠ [0xaa, 0x99, 0x55, 0x66] ∧
            (input.take (min 4096 fwLen)).take 4 ≠ [0x66, 0x55, 0x99, 0xaa]
        · rw [if_pos hs, if_pos hs]
        · rw [if_neg hs, if_neg hs]
          have hlt : (input.take (min 4096 fwLen)).length = min 4096 fwLen := by
            rw [List.length_take]; omega
          have hinv : invert_u32_endianness (input.take (min 4096 fwLen)) =
              some (invert_u32_swap (input.take (min 4096 fwLen))) := by
            simp [invert_u32_endianness, hlt, hcl4]
          rw [hinv, (ih (fwLen - min 4096 fwLen) false
            (if first = true then
              decide ((input.take (min 4096 fwLen)).take 4 = [0xaa, 0x99, 0x55, 0x66])
             else inv)
            (input.drop (min 4096 fwLen)) (by omega)).1]
          generalize (if first = true then
              decide ((input.take (min 4096 fwLen)).take 4 = [0xaa, 0x99, 0x55, 0x66])
            else inv) = I
          cases I <;> simp
      · rw [if_neg hin, if_neg hin]

/-- Witness for C4 at an aligned 8-byte firmware remainder spanning one
chunk. -/
theorem copy_chunks_aligned_eq_strict_witness :
    (copy_chunks 8 8 true false [0xaa, 0x99, 0x55, 0x66, 1, 2, 3, 4] =
      copy_chunks_strict 8 8 true false [0xaa, 0x99, 0x55, 0x66, 1, 2, 3, 4]) ∧
    (min 4096 8 < 4096 → 8 - min 4096 8 = 0) :=
  copy_chunks_aligned_eq_strict 8 8 true false [0xaa, 0x99, 0x55, 0x66, 1, 2, 3, 4]
    (by decide)

/-! ### Output provenance (claim C10) -/

/-- On success, `read_meta_field` leaves a suffix of its input. -/
theorem read_meta_field_suffix (input d r : List Nat)
    (h : read_meta_field input = some (d, r)) : r <:+ input := by
  cases hru : read_uint 2 input with
  | none => rw [read_meta_field, hru] at h; cases h
  | some p =>
    obtain ⟨fl, rest⟩ := p
    simp only [read_meta_field, hru] at h
    have hrest : rest = input.drop 2 := read_uint_rest 2 input fl rest hru
    by_cases h1 : fl > 256
    · rw [if_pos h1] at h; cases h
    · rw [if_neg h1] at h
      by_cases h2 : fl ≤ rest.length
      · rw [if_pos h2] at h
        simp only [Option.some.injEq, Prod.mk.injEq] at h
        rw [← h.2, hrest, List.drop_drop]
        exact List.drop_suffix _ _
      · rw [if_neg h2] at h; cases h

/-- The field loop writes to the output only what a `process_firmware` call on
some suffix of its input writes. -/
theorem field_loop_out (fuel : Nat) : ∀ input : List Nat,
    (field_loop fuel input).2 = [] ∨
    ∃ rest, rest <:+ input ∧ (field_loop fuel input).2 = (process_firmware rest).2 := by
  induction fuel with
  | zero => intro input; left; rfl
  | succ fuel ih =>
    intro input
    match input with
    | [] => left; rfl
    | t :: rest =>
      by_cases h1 : t = 0x61 ∨ t = 0x62 ∨ t = 0x63 ∨ t = 0x64
      · cases hm : read_meta_field rest with
        | none => left; simp [field_loop, h1, hm]
        | some p =>
          obtain ⟨d, r2⟩ := p
          have heq : field_loop (fuel + 1) (t :: rest) = field_loop fuel r2 := by
            simp [field_loop, h1, hm]
          rcases ih r2 with h | ⟨s, hs, hout⟩
          · left; rw [heq]; exact h
          · right
            refine ⟨s, ?_, by rw [heq]; exact hout⟩
            exact (hs.trans (read_meta_field_suffix rest d r2 hm)).trans
              (List.suffix_cons t rest)
      · by_cases h2 : t = 0x65
        · right
          refine ⟨rest, List.suffix_cons t rest, ?_⟩
          simp [field_loop, h1, h2]
        · left; simp [field_loop, h1, h2]

/-- Claim C10: the output stream receives bytes only from firmware
extraction: for every input, the bytes `process_bit_file` writes to the
output are empty or exactly the bytes written by the `process_firmware` call
on the suffix of the input where the firmware field starts — header
validation and metadata fields contribute nothing. -/
theorem output_only_firmware (input : List Nat) :
    (process_bit_file input).2 = [] ∨
    ∃ rest, rest <:+ input ∧ (process_bit_file input).2 = (process_firmware rest).2 := by
  unfold process_bit_file
  rcases field_loop_out (input.length + 1) (input.drop BIT_MAGIC_HEADER.length) with
    h | ⟨s, hs, hout⟩
  · left; exact h
  · right; exact ⟨s, hs.trans (List.drop_suffix _ _), hout⟩
